import Mathlib

/-!
Shallow embedding of the multiway bubble-sort system
(`bubble.py`, `bubble2.py`, `bubbleWithDuplicates.py`, `causalWithDuplicates.py`).

States (Python tuples of ints) are modelled as `List Int`.  `networkx.DiGraph`
is modelled by `Digraph`: an insertion-ordered node list and edge list with
set semantics (adding an existing node or edge is a no-op; adding an edge
first inserts any missing endpoint), which is the observable behaviour of
`DiGraph.add_node` / `add_edge` as used by the scripts.
-/

namespace Multiway

/-- Embeds `inversions` (src/bubble.py lines 15-21; duplicated verbatim in the
other three scripts): the number of index pairs `i < j` with `t[i] > t[j]`.
The Python double loop counts, for each position, the later entries that are
smaller; the structural recursion does the same, head first. -/
def inversions : List Int → Nat
  | [] => 0
  | x :: xs => xs.countP (fun y => decide (x > y)) + inversions xs

/-- One adjacent swap `q[i], q[i+1] = q[i+1], q[i]` as performed in the loop
body of `bubble_neighbors` (the right-hand sides read the pre-swap values). -/
def swapAdj (t : List Int) (i : Nat) : List Int :=
  (t.set i (t.getD (i + 1) 0)).set (i + 1) (t.getD i 0)

/-- Embeds `bubble_neighbors` (src/bubble.py lines 23-29; duplicated in the
other scripts): one successor per adjacent strictly-out-of-order pair.  The
Python loop scans windows left to right; the recursion inspects the window
`x, y` and then all windows of `y :: rest`.  `bubble_neighbors_indexed_form`
below proves this equal to the direct indexed reading of the source loop. -/
def bubble_neighbors : List Int → List (List Int)
  | x :: y :: rest =>
      (if x > y then [y :: x :: rest] else []) ++
        (bubble_neighbors (y :: rest)).map (fun q => x :: q)
  | _ => []

/-- Embeds `bubble_neighbors_with_index` (src/causalWithDuplicates.py lines
40-49): like `bubble_neighbors`, but each successor is paired with the swap
position it came from. -/
def bubble_neighbors_with_index : List Int → List (List Int × Nat)
  | x :: y :: rest =>
      (if x > y then [(y :: x :: rest, 0)] else []) ++
        (bubble_neighbors_with_index (y :: rest)).map (fun p => (x :: p.1, p.2 + 1))
  | _ => []

/-- Embeds `unique_permutations` (src/bubbleWithDuplicates.py lines 22-25 and
src/causalWithDuplicates.py lines 24-27): `sorted(set(permutations(values)))`,
i.e. the distinct permutations of the input multiset in a deterministic
(lexicographic) order. -/
def lexLe : List Int → List Int → Bool
  | [], _ => true
  | _ :: _, [] => false
  | x :: xs, y :: ys => if x < y then true else if y < x then false else lexLe xs ys

/-- See `lexLe`: the enumerated state set of the duplicate-aware scripts.
`permutations'` enumerates all permutations (`itertools.permutations` visits
them in a different order, but `set(...)` discards that order) and the stable
`insertionSort` by `lexLe` models Python's `sorted` (on the duplicate-free
output of `set`, any sort by the same total order gives the same list). -/
def unique_permutations (values : List Int) : List (List Int) :=
  (values.permutations'.dedup).insertionSort (fun a b => lexLe a b)

/-- Embeds `states_from_n` (src/bubble.py lines 31-33):
`list(permutations(range(1, n+1)))`; the enumeration order of `permutations'`
differs from the itertools one, which no claim observes. -/
def states_from_n (n : Nat) : List (List Int) :=
  ((List.range' 1 n).map Int.ofNat).permutations'

/-- Model of `networkx.DiGraph` as observed through the operations the scripts
use: an insertion-ordered list of distinct nodes and of distinct edges. -/
structure Digraph (α : Type) where
  nodes : List α
  edges : List (α × α)
deriving DecidableEq

/-- The fresh graph `nx.DiGraph()`. -/
def Digraph.empty (α : Type) : Digraph α := ⟨[], []⟩

/-- Model of `DiGraph.add_node`: a no-op when the node is already present. -/
def addNode {α : Type} [DecidableEq α] (G : Digraph α) (n : α) : Digraph α :=
  if n ∈ G.nodes then G else { G with nodes := G.nodes ++ [n] }

/-- Model of `DiGraph.add_edge`: missing endpoints are inserted as nodes, and
adding an already-present edge is a no-op. -/
def addEdge {α : Type} [DecidableEq α] (G : Digraph α) (p q : α) : Digraph α :=
  let G1 := addNode (addNode G p) q
  if (p, q) ∈ G1.edges then G1 else { G1 with edges := G1.edges ++ [(p, q)] }

/-- Model of `DiGraph.add_nodes_from`. -/
def add_nodes_from {α : Type} [DecidableEq α] (G : Digraph α) (l : List α) : Digraph α :=
  l.foldl addNode G

/-- Adding a list of edges in order; the loops of the builders reduce to this. -/
def addEdges {α : Type} [DecidableEq α] (G : Digraph α) (l : List (α × α)) : Digraph α :=
  l.foldl (fun g pq => addEdge g pq.1 pq.2) G

/-- Embeds `multiway_bubble` (src/bubble.py lines 38-44, duplicated in
src/bubble2.py and as `build_multiway` in src/bubbleWithDuplicates.py lines
45-53): add all states as nodes, then every bubble step as an edge. -/
def multiway_bubble (states : List (List Int)) : Digraph (List Int) :=
  states.foldl (fun G p => (bubble_neighbors p).foldl (fun G q => addEdge G p q) G)
    (add_nodes_from (Digraph.empty (List Int)) states)

/-- Out-degree of a node, as reported by `DiGraph.out_degree`. -/
def out_degree {α : Type} [DecidableEq α] (G : Digraph α) (p : α) : Nat :=
  G.edges.countP (fun e => decide (e.1 = p))

/-- A directed graph is acyclic when no node reaches itself through a
non-empty edge path (the property `nx.is_directed_acyclic_graph` checks). -/
def Digraph.Acyclic {α : Type} (G : Digraph α) : Prop :=
  ∀ a, ¬ Relation.TransGen (fun p q => (p, q) ∈ G.edges) a a

/-- Causal-graph event record (src/causalWithDuplicates.py lines 58-73): one
swap occurrence `p --swap@i--> q`.  The running `id` of the Python dict is the
event's position in `all_events`. -/
structure Event where
  source : List Int
  target : List Int
  swap_index : Nat
deriving DecidableEq

instance : Inhabited Event := ⟨⟨[], [], 0⟩⟩

/-- All events enumerated by the first loop of `build_causal_graph`
(src/causalWithDuplicates.py lines 58-73), in id order. -/
def all_events (states : List (List Int)) : List Event :=
  states.flatMap (fun p =>
    (bubble_neighbors_with_index p).map (fun qi => ⟨p, qi.1, qi.2⟩))

/-- Ids held by `in_events_to_state[s]`: the events producing `s`, in id
order (the order `setdefault(...).append` builds). -/
def in_event_ids (evs : List Event) (s : List Int) : List Nat :=
  (List.range evs.length).filter (fun i => decide ((evs.getD i default).target = s))

/-- Ids held by `out_events_from_state[s]`: the events consuming `s`. -/
def out_event_ids (evs : List Event) (s : List Int) : List Nat :=
  (List.range evs.length).filter (fun i => decide ((evs.getD i default).source = s))

/-- Embeds `build_causal_graph` (src/causalWithDuplicates.py lines 52-101):
event ids become nodes, and for every intermediate state the producing events
are joined to the consuming events.  Per-node attributes (source/target
strings, labels, inversion counts) are recovered from `all_events`. -/
def build_causal_graph (states : List (List Int)) : Digraph Nat :=
  states.foldl (fun G s =>
    (in_event_ids (all_events states) s).foldl (fun G e1 =>
      (out_event_ids (all_events states) s).foldl (fun G e2 => addEdge G e1 e2) G) G)
    (add_nodes_from (Digraph.empty Nat) (List.range (all_events states).length))

/-- Node type for the graph of src/bubble2.py, whose node set mixes value
sequences with the synthetic string node `SUPER = "__START__"` (line 16). -/
inductive BNode
  | state (s : List Int)
  | super
deriving DecidableEq

/-- The `multiway_bubble` of src/bubble2.py (lines 38-44), building over the
mixed node type so the super-source can live in the same graph. -/
def multiway_bubble2 (states : List (List Int)) : Digraph BNode :=
  states.foldl (fun G p =>
    (bubble_neighbors p).foldl (fun G q => addEdge G (BNode.state p) (BNode.state q)) G)
    (add_nodes_from (Digraph.empty BNode) (states.map BNode.state))

/-- Embeds `add_super_source` (src/bubble2.py lines 50-54): add the single
synthetic node and an edge from it to every state. -/
def add_super_source (G : Digraph BNode) (states : List (List Int)) : Digraph BNode :=
  states.foldl (fun G s => addEdge G BNode.super (BNode.state s)) (addNode G BNode.super)

/-- Distinct inversion-count keys sorted descending: the layer order
`sorted(levels.keys(), reverse=True)` common to both layout functions
(src/bubbleWithDuplicates.py lines 55-69, src/causalWithDuplicates.py lines
104-120). -/
def sortedDescKeys (ks : List Nat) : List Nat :=
  (ks.dedup).mergeSort (fun a b => decide (b ≤ a))

/-- Layer index a node receives from `layered_layout_by_inversions`
(src/bubbleWithDuplicates.py lines 55-69): position of its inversion count in
the descending list of inversion counts present in the graph (`-y` of the
produced coordinate). -/
def state_layer (G : Digraph (List Int)) (node : List Int) : Nat :=
  (sortedDescKeys (G.nodes.map inversions)).indexOf (inversions node)

/-- Layer index an event node receives from
`layered_layout_by_source_inversions` (src/causalWithDuplicates.py lines
104-120): keyed by the `source_inversions` attribute, which
`build_causal_graph` sets to the inversion count of the event's source (the
`.get(..., 0)` default coincides with `inversions []` on the modelled
lookup). -/
def causal_layer (states : List (List Int)) (G : Digraph Nat) (id : Nat) : Nat :=
  (sortedDescKeys (G.nodes.map
      (fun n => inversions ((all_events states).getD n default).source))).indexOf
    (inversions ((all_events states).getD id default).source)

/-- The edge list the nested loops of `multiway_bubble` feed to `add_edge`. -/
def multiway_edge_list (states : List (List Int)) : List (List Int × List Int) :=
  states.flatMap (fun p => (bubble_neighbors p).map (fun q => (p, q)))

/-- The edge list the nested loops of `build_causal_graph` feed to
`add_edge`. -/
def causal_edge_list (states : List (List Int)) : List (Nat × Nat) :=
  states.flatMap (fun s =>
    (in_event_ids (all_events states) s).flatMap (fun e1 =>
      (out_event_ids (all_events states) s).map (fun e2 => (e1, e2))))

/-- The causal edges with each event id replaced by the event data it denotes
(the `source_str` / `target_str` / `swap_index` attributes the builder writes
on the node): the enumeration-order-independent view of the causal graph. -/
def causal_edge_contents (states : List (List Int)) : List (Event × Event) :=
  (build_causal_graph states).edges.map (fun pq =>
    ((all_events states).getD pq.1 default, (all_events states).getD pq.2 default))

section DigraphLemmas

variable {α : Type} [DecidableEq α]

theorem edges_addNode (G : Digraph α) (n : α) : (addNode G n).edges = G.edges := by
  unfold addNode; split <;> rfl

theorem mem_nodes_addNode {G : Digraph α} {n m : α} :
    m ∈ (addNode G n).nodes ↔ m ∈ G.nodes ∨ m = n := by
  unfold addNode
  split
  · rename_i h
    exact ⟨Or.inl, fun h' => h'.elim id (fun e => e ▸ h)⟩
  · simp

theorem nodes_addNode_of_mem {G : Digraph α} {n : α} (h : n ∈ G.nodes) :
    (addNode G n).nodes = G.nodes := by
  unfold addNode; simp [h]

theorem mem_nodes_addEdge {G : Digraph α} {p q m : α} :
    m ∈ (addEdge G p q).nodes ↔ m ∈ G.nodes ∨ m = p ∨ m = q := by
  simp only [addEdge]
  split <;> simp [mem_nodes_addNode, or_assoc]

theorem mem_edges_addEdge {G : Digraph α} {p q : α} {e : α × α} :
    e ∈ (addEdge G p q).edges ↔ e ∈ G.edges ∨ e = (p, q) := by
  simp only [addEdge, edges_addNode]
  split
  · rename_i h
    simp only [edges_addNode]
    exact ⟨Or.inl, fun h' => h'.elim id (fun he => he ▸ h)⟩
  · simp [edges_addNode]

theorem edges_addEdge_of_not_mem {G : Digraph α} {p q : α} (h : (p, q) ∉ G.edges) :
    (addEdge G p q).edges = G.edges ++ [(p, q)] := by
  simp only [addEdge, edges_addNode]
  simp [h]

theorem nodes_addEdge_of_mem {G : Digraph α} {p q : α} (hp : p ∈ G.nodes) (hq : q ∈ G.nodes) :
    (addEdge G p q).nodes = G.nodes := by
  simp only [addEdge]
  split <;> simp [nodes_addNode_of_mem, mem_nodes_addNode, hp, hq]

theorem addEdges_append (G : Digraph α) (l1 l2 : List (α × α)) :
    addEdges G (l1 ++ l2) = addEdges (addEdges G l1) l2 := by
  simp [addEdges, List.foldl_append]

theorem addEdges_cons (G : Digraph α) (pq : α × α) (l : List (α × α)) :
    addEdges G (pq :: l) = addEdges (addEdge G pq.1 pq.2) l := rfl

theorem mem_edges_addEdges {G : Digraph α} {l : List (α × α)} {e : α × α} :
    e ∈ (addEdges G l).edges ↔ e ∈ G.edges ∨ e ∈ l := by
  induction l generalizing G with
  | nil => simp [addEdges]
  | cons pq l ih =>
    rw [addEdges_cons, ih, mem_edges_addEdge]
    simp [or_assoc]

theorem mem_nodes_addEdges {G : Digraph α} {l : List (α × α)} {m : α} :
    m ∈ (addEdges G l).nodes ↔ m ∈ G.nodes ∨ ∃ pq ∈ l, m = pq.1 ∨ m = pq.2 := by
  induction l generalizing G with
  | nil => simp [addEdges]
  | cons pq l ih =>
    rw [addEdges_cons, ih, mem_nodes_addEdge]
    simp only [List.mem_cons]
    constructor
    · rintro ((h | h | h) | ⟨x, hx, h⟩)
      · exact Or.inl h
      · exact Or.inr ⟨pq, Or.inl rfl, Or.inl h⟩
      · exact Or.inr ⟨pq, Or.inl rfl, Or.inr h⟩
      · exact Or.inr ⟨x, Or.inr hx, h⟩
    · rintro (h | ⟨x, rfl | hx, h⟩)
      · exact Or.inl (Or.inl h)
      · exact Or.inl (Or.inr h)
      · exact Or.inr ⟨x, hx, h⟩

theorem edges_addEdges_of_nodup {G : Digraph α} {l : List (α × α)} (hG : G.edges.Nodup)
    (hl : l.Nodup) (hdis : ∀ e ∈ l, e ∉ G.edges) : (addEdges G l).edges = G.edges ++ l := by
  induction l generalizing G with
  | nil => simp [addEdges]
  | cons pq l ih =>
    rw [addEdges_cons, ih]
    · rw [edges_addEdge_of_not_mem (hdis pq (List.mem_cons_self pq l))]
      simp
    · rw [edges_addEdge_of_not_mem (hdis pq (List.mem_cons_self pq l))]
      exact hG.append (List.nodup_singleton pq)
        (by simpa using hdis pq (List.mem_cons_self pq l))
    · exact hl.of_cons
    · intro e he
      rw [edges_addEdge_of_not_mem (hdis pq (List.mem_cons_self pq l))]
      simp only [List.mem_append, List.mem_singleton]
      rintro (h | rfl)
      · exact hdis e (List.mem_cons_of_mem pq he) h
      · exact (List.nodup_cons.mp hl).1 he

theorem nodes_addEdges_of_mem {G : Digraph α} {l : List (α × α)}
    (h : ∀ pq ∈ l, pq.1 ∈ G.nodes ∧ pq.2 ∈ G.nodes) : (addEdges G l).nodes = G.nodes := by
  induction l generalizing G with
  | nil => simp [addEdges]
  | cons pq l ih =>
    rw [addEdges_cons, ih]
    · exact nodes_addEdge_of_mem (h pq (List.mem_cons_self pq l)).1
        (h pq (List.mem_cons_self pq l)).2
    · intro e he
      rw [nodes_addEdge_of_mem (h pq (List.mem_cons_self pq l)).1
        (h pq (List.mem_cons_self pq l)).2]
      exact h e (List.mem_cons_of_mem pq he)

theorem edges_add_nodes_from (G : Digraph α) (l : List α) :
    (add_nodes_from G l).edges = G.edges := by
  induction l generalizing G with
  | nil => rfl
  | cons a l ih => rw [add_nodes_from, List.foldl_cons, ← add_nodes_from, ih, edges_addNode]

theorem mem_nodes_add_nodes_from {G : Digraph α} {l : List α} {m : α} :
    m ∈ (add_nodes_from G l).nodes ↔ m ∈ G.nodes ∨ m ∈ l := by
  induction l generalizing G with
  | nil => simp [add_nodes_from]
  | cons a l ih =>
    rw [add_nodes_from, List.foldl_cons, ← add_nodes_from, ih, mem_nodes_addNode]
    simp only [List.mem_cons]
    tauto

theorem nodes_add_nodes_from_of_nodup {G : Digraph α} {l : List α} (hG : ∀ a ∈ l, a ∉ G.nodes)
    (hl : l.Nodup) : (add_nodes_from G l).nodes = G.nodes ++ l := by
  induction l generalizing G with
  | nil => simp [add_nodes_from]
  | cons a l ih =>
    rw [add_nodes_from, List.foldl_cons, ← add_nodes_from]
    have ha : a ∉ G.nodes := hG a (List.mem_cons_self a l)
    have : (addNode G a).nodes = G.nodes ++ [a] := by unfold addNode; simp [ha]
    rw [ih, this]
    · simp
    · intro b hb
      rw [this]
      simp only [List.mem_append, List.mem_singleton]
      rintro (h | rfl)
      · exact hG b (List.mem_cons_of_mem a hb) h
      · exact (List.nodup_cons.mp hl).1 hb
    · exact hl.of_cons

theorem foldl_addEdges_flatMap {β : Type} (f : β → List (α × α)) (l : List β) (G : Digraph α) :
    l.foldl (fun G b => addEdges G (f b)) G = addEdges G (l.flatMap f) := by
  induction l generalizing G with
  | nil => rfl
  | cons b l ih =>
    rw [List.foldl_cons, ih, List.flatMap_cons, addEdges_append]

end DigraphLemmas

theorem multiway_bubble_eq (states : List (List Int)) :
    multiway_bubble states =
      addEdges (add_nodes_from (Digraph.empty (List Int)) states) (multiway_edge_list states) := by
  unfold multiway_bubble
  have h : (fun (G : Digraph (List Int)) p =>
        (bubble_neighbors p).foldl (fun G q => addEdge G p q) G) =
      fun G p => addEdges G ((bubble_neighbors p).map (fun q => (p, q))) := by
    funext G p
    rw [addEdges, List.foldl_map]
  rw [h, foldl_addEdges_flatMap]
  rfl

theorem build_causal_graph_eq (states : List (List Int)) :
    build_causal_graph states =
      addEdges (add_nodes_from (Digraph.empty Nat) (List.range (all_events states).length))
        (causal_edge_list states) := by
  unfold build_causal_graph
  have h1 : ∀ (e1 : Nat) (out : List Nat) (G : Digraph Nat),
      out.foldl (fun G e2 => addEdge G e1 e2) G = addEdges G (out.map (fun e2 => (e1, e2))) := by
    intro e1 out G
    rw [addEdges, List.foldl_map]
  have h2 : (fun (G : Digraph Nat) s =>
        (in_event_ids (all_events states) s).foldl (fun G e1 =>
          (out_event_ids (all_events states) s).foldl (fun G e2 => addEdge G e1 e2) G) G) =
      fun G s => addEdges G ((in_event_ids (all_events states) s).flatMap (fun e1 =>
        (out_event_ids (all_events states) s).map (fun e2 => (e1, e2)))) := by
    funext G s
    have h3 : (fun (G : Digraph Nat) e1 =>
          (out_event_ids (all_events states) s).foldl (fun G e2 => addEdge G e1 e2) G) =
        fun G e1 => addEdges G ((out_event_ids (all_events states) s).map
          (fun e2 => (e1, e2))) := by
      funext G e1
      exact h1 e1 _ G
    rw [h3, foldl_addEdges_flatMap]
  rw [h2, foldl_addEdges_flatMap]
  rfl

/-- Bubble2 edge list: the same multiway edges, tagged into the mixed node
type. -/
def multiway2_edge_list (states : List (List Int)) : List (BNode × BNode) :=
  states.flatMap (fun p => (bubble_neighbors p).map (fun q => (BNode.state p, BNode.state q)))

/-- Super-source edge list: one edge from the synthetic node to each state. -/
def super_edge_list (states : List (List Int)) : List (BNode × BNode) :=
  states.map (fun s => (BNode.super, BNode.state s))

theorem multiway_bubble2_eq (states : List (List Int)) :
    multiway_bubble2 states =
      addEdges (add_nodes_from (Digraph.empty BNode) (states.map BNode.state))
        (multiway2_edge_list states) := by
  unfold multiway_bubble2
  have h : (fun (G : Digraph BNode) p =>
        (bubble_neighbors p).foldl (fun G q => addEdge G (BNode.state p) (BNode.state q)) G) =
      fun G p => addEdges G ((bubble_neighbors p).map
        (fun q => (BNode.state p, BNode.state q))) := by
    funext G p
    rw [addEdges, List.foldl_map]
  rw [h, foldl_addEdges_flatMap]
  rfl

theorem add_super_source_eq (G : Digraph BNode) (states : List (List Int)) :
    add_super_source G states = addEdges (addNode G BNode.super) (super_edge_list states) := by
  unfold add_super_source
  rw [addEdges, super_edge_list, List.foldl_map]

theorem swapAdj_zero (x y : Int) (rest : List Int) :
    swapAdj (x :: y :: rest) 0 = y :: x :: rest := by
  simp [swapAdj]

theorem swapAdj_cons_succ (a : Int) (t : List Int) (i : Nat) :
    swapAdj (a :: t) (i + 1) = a :: swapAdj t i := by
  simp [swapAdj]

/-- The recursive `bubble_neighbors_with_index` equals the direct indexed
reading of the source loop: keep the indices with a strict descent, swap
there. -/
theorem bubble_neighbors_with_index_eq : ∀ t : List Int,
    bubble_neighbors_with_index t =
      ((List.range (t.length - 1)).filter
        (fun i => decide (t.getD i 0 > t.getD (i + 1) 0))).map (fun i => (swapAdj t i, i))
  | [] => by simp [bubble_neighbors_with_index]
  | [x] => by simp [bubble_neighbors_with_index]
  | x :: y :: rest => by
    rw [bubble_neighbors_with_index, bubble_neighbors_with_index_eq (y :: rest)]
    have hlen : (x :: y :: rest).length - 1 = ((y :: rest).length - 1) + 1 := by simp
    rw [hlen, List.range_succ_eq_map, List.filter_cons]
    by_cases hxy : x > y <;>
      simp [hxy, List.filter_map, List.map_map, Function.comp_def, swapAdj_zero,
        swapAdj_cons_succ, Nat.succ_eq_add_one]

theorem bubble_neighbors_eq_map_fst : ∀ t : List Int,
    bubble_neighbors t = (bubble_neighbors_with_index t).map Prod.fst
  | [] => rfl
  | [x] => rfl
  | x :: y :: rest => by
    rw [bubble_neighbors, bubble_neighbors_with_index, bubble_neighbors_eq_map_fst (y :: rest)]
    by_cases hxy : x > y <;> simp [hxy, List.map_map, Function.comp_def]

/-- Membership form of the indexed characterization. -/
theorem mem_bubble_neighbors_with_index {t q : List Int} {i : Nat} :
    (q, i) ∈ bubble_neighbors_with_index t ↔
      i + 1 < t.length ∧ t.getD (i + 1) 0 < t.getD i 0 ∧ q = swapAdj t i := by
  rw [bubble_neighbors_with_index_eq]
  simp only [List.mem_map, List.mem_filter, List.mem_range, Prod.mk.injEq]
  constructor
  · rintro ⟨j, ⟨hj, hcond⟩, hswap, rfl⟩
    exact ⟨by omega, by simpa using hcond, hswap.symm⟩
  · rintro ⟨hi, hcond, rfl⟩
    exact ⟨i, ⟨by omega, by simpa using hcond⟩, rfl, rfl⟩

/-- Membership form for the plain generator. -/
theorem mem_bubble_neighbors {t q : List Int} :
    q ∈ bubble_neighbors t ↔
      ∃ i, i + 1 < t.length ∧ t.getD (i + 1) 0 < t.getD i 0 ∧ q = swapAdj t i := by
  rw [bubble_neighbors_eq_map_fst]
  constructor
  · intro h
    obtain ⟨⟨q', i⟩, hqi, h2⟩ := List.mem_map.mp h
    cases h2
    exact ⟨i, mem_bubble_neighbors_with_index.mp hqi⟩
  · rintro ⟨i, hi, hcond, rfl⟩
    exact List.mem_map.mpr ⟨(swapAdj t i, i),
      mem_bubble_neighbors_with_index.mpr ⟨hi, hcond, rfl⟩, rfl⟩

/-- Every successor is a permutation of its source (an adjacent swap only
reorders). -/
theorem perm_bubble_neighbors : ∀ (t q : List Int), q ∈ bubble_neighbors t → t.Perm q
  | [], q => by simp [bubble_neighbors]
  | [x], q => by simp [bubble_neighbors]
  | x :: y :: rest, q => by
    simp only [bubble_neighbors]
    intro hq
    rcases List.mem_append.mp hq with h | h
    · by_cases hxy : x > y
      · simp only [if_pos hxy, List.mem_singleton] at h
        subst h
        exact List.Perm.swap y x rest
      · simp [if_neg hxy] at h
    · obtain ⟨q', hq', rfl⟩ := List.mem_map.mp h
      exact (perm_bubble_neighbors (y :: rest) q' hq').cons x

/-- Core inversion-count step: one strict adjacent swap removes exactly one
inversion. -/
theorem inversions_of_mem_bubble_neighbors : ∀ (t q : List Int),
    q ∈ bubble_neighbors t → inversions t = inversions q + 1
  | [], q => by simp [bubble_neighbors]
  | [x], q => by simp [bubble_neighbors]
  | x :: y :: rest, q => by
    simp only [bubble_neighbors]
    intro hq
    rcases List.mem_append.mp hq with h | h
    · by_cases hxy : x > y
      · simp only [if_pos hxy, List.mem_singleton] at h
        subst h
        have e1 : inversions (x :: y :: rest) =
            (y :: rest).countP (fun z => decide (x > z)) +
              (rest.countP (fun z => decide (y > z)) + inversions rest) := rfl
        have e2 : inversions (y :: x :: rest) =
            (x :: rest).countP (fun z => decide (y > z)) +
              (rest.countP (fun z => decide (x > z)) + inversions rest) := rfl
        have hyx : ¬ (y > x) := by omega
        rw [e1, e2, List.countP_cons, List.countP_cons]
        simp [hxy, hyx]
        omega
      · simp [if_neg hxy] at h
    · obtain ⟨q', hq', rfl⟩ := List.mem_map.mp h
      have hperm := perm_bubble_neighbors (y :: rest) q' hq'
      have hc := hperm.countP_eq (fun z => decide (x > z))
      have ih := inversions_of_mem_bubble_neighbors (y :: rest) q' hq'
      have e1 : inversions (x :: y :: rest) =
          (y :: rest).countP (fun z => decide (x > z)) + inversions (y :: rest) := rfl
      have e2 : inversions (x :: q') =
          q'.countP (fun z => decide (x > z)) + inversions q' := rfl
      rw [e1, e2]
      omega

/-- A non-descending state generates no successor. -/
theorem sorted_bubble_neighbors_nil : ∀ (t : List Int),
    t.Sorted (· ≤ ·) → bubble_neighbors t = []
  | [], _ => rfl
  | [x], _ => rfl
  | x :: y :: rest, h => by
    have hxy : x ≤ y := (List.sorted_cons.mp h).1 y (List.mem_cons_self y rest)
    have ht : (y :: rest).Sorted (· ≤ ·) := (List.sorted_cons.mp h).2
    simp only [bubble_neighbors]
    rw [sorted_bubble_neighbors_nil (y :: rest) ht]
    have : ¬ (x > y) := not_lt.mpr hxy
    simp [this]

/-- A state with no successor is non-descending. -/
theorem sorted_of_bubble_neighbors_nil : ∀ (t : List Int),
    bubble_neighbors t = [] → t.Sorted (· ≤ ·)
  | [], _ => List.sorted_nil
  | [x], _ => List.sorted_singleton x
  | x :: y :: rest, h => by
    simp only [bubble_neighbors, List.append_eq_nil] at h
    obtain ⟨h1, h2⟩ := h
    have hxy : ¬ (x > y) := by
      intro hgt
      rw [if_pos hgt] at h1
      exact List.cons_ne_nil _ _ h1
    have hnil : bubble_neighbors (y :: rest) = [] := by
      simpa using h2
    have ih := sorted_of_bubble_neighbors_nil (y :: rest) hnil
    refine List.sorted_cons.mpr ⟨?_, ih⟩
    intro b hb
    rcases List.mem_cons.mp hb with rfl | hb
    · exact not_lt.mp hxy
    · exact le_trans (not_lt.mp hxy) ((List.sorted_cons.mp ih).1 b hb)

/-- Sorted states have no inversions. -/
theorem inversions_eq_zero_of_sorted : ∀ (t : List Int),
    t.Sorted (· ≤ ·) → inversions t = 0
  | [], _ => rfl
  | x :: xs, h => by
    have h1 := (List.sorted_cons.mp h).1
    have h2 := inversions_eq_zero_of_sorted xs (List.sorted_cons.mp h).2
    have e : inversions (x :: xs) = xs.countP (fun z => decide (x > z)) + inversions xs := rfl
    rw [e, h2, Nat.add_zero, List.countP_eq_zero]
    intro a ha
    simpa using not_lt.mpr (h1 a ha)

/-- Each state's successor list is duplicate-free: distinct applicable swaps
give distinct successors. -/
theorem nodup_bubble_neighbors : ∀ t : List Int, (bubble_neighbors t).Nodup
  | [] => List.nodup_nil
  | [x] => List.nodup_nil
  | x :: y :: rest => by
    simp only [bubble_neighbors]
    by_cases hxy : x > y
    · rw [if_pos hxy]
      refine List.Nodup.append (List.nodup_singleton _)
        ((nodup_bubble_neighbors (y :: rest)).map List.cons_injective) ?_
      intro e he1 he2
      rw [List.mem_singleton] at he1
      subst he1
      obtain ⟨q', _, heq⟩ := List.mem_map.mp he2
      have : y = x := (List.cons_eq_cons.mp heq.symm).1
      omega
    · rw [if_neg hxy]
      simpa using (nodup_bubble_neighbors (y :: rest)).map List.cons_injective

theorem nodup_bubble_neighbors_with_index (t : List Int) :
    (bubble_neighbors_with_index t).Nodup := by
  apply List.Nodup.of_map Prod.fst
  rw [← bubble_neighbors_eq_map_fst]
  exact nodup_bubble_neighbors t

/-- Distinct applicable swap indices yield distinct successors. -/
theorem fst_ne_of_snd_ne {t : List Int} {a b : List Int × Nat}
    (ha : a ∈ bubble_neighbors_with_index t) (hb : b ∈ bubble_neighbors_with_index t)
    (hab : a.2 ≠ b.2) : a.1 ≠ b.1 := by
  intro h
  have hmap : ((bubble_neighbors_with_index t).map Prod.fst).Nodup := by
    rw [← bubble_neighbors_eq_map_fst]
    exact nodup_bubble_neighbors t
  exact hab (congrArg Prod.snd (List.inj_on_of_nodup_map hmap ha hb h))

theorem mem_edges_multiway {states : List (List Int)} {p q : List Int} :
    (p, q) ∈ (multiway_bubble states).edges ↔ p ∈ states ∧ q ∈ bubble_neighbors p := by
  rw [multiway_bubble_eq, mem_edges_addEdges, edges_add_nodes_from]
  simp only [Digraph.empty, List.not_mem_nil, false_or]
  rw [multiway_edge_list]
  simp only [List.mem_flatMap, List.mem_map, Prod.mk.injEq]
  constructor
  · rintro ⟨p', hp', q', hq', rfl, rfl⟩
    exact ⟨hp', hq'⟩
  · rintro ⟨hp, hq⟩
    exact ⟨p, hp, q, hq, rfl, rfl⟩

theorem mem_nodes_multiway {states : List (List Int)} {n : List Int} :
    n ∈ (multiway_bubble states).nodes ↔
      n ∈ states ∨ ∃ p ∈ states, n ∈ bubble_neighbors p := by
  rw [multiway_bubble_eq, mem_nodes_addEdges, mem_nodes_add_nodes_from]
  simp only [Digraph.empty, List.not_mem_nil, false_or]
  rw [multiway_edge_list]
  simp only [List.mem_flatMap, List.mem_map]
  constructor
  · rintro (h | ⟨pq, ⟨p', hp', q', hq', rfl⟩, h | h⟩)
    · exact Or.inl h
    · exact Or.inl (h ▸ hp')
    · exact Or.inr ⟨p', hp', h ▸ hq'⟩
  · rintro (h | ⟨p', hp', hq⟩)
    · exact Or.inl h
    · exact Or.inr ⟨(p', n), ⟨p', hp', n, hq, rfl⟩, Or.inr rfl⟩

/-- Inversion count strictly drops along any non-empty path of the multiway
graph. -/
theorem inversions_lt_of_transGen {states : List (List Int)} {a b : List Int}
    (h : Relation.TransGen (fun p q => (p, q) ∈ (multiway_bubble states).edges) a b) :
    inversions b < inversions a := by
  induction h with
  | single h =>
    have := inversions_of_mem_bubble_neighbors _ _ (mem_edges_multiway.mp h).2
    omega
  | tail _ h ih =>
    have := inversions_of_mem_bubble_neighbors _ _ (mem_edges_multiway.mp h).2
    omega

theorem mem_unique_permutations {values x : List Int} :
    x ∈ unique_permutations values ↔ x.Perm values := by
  rw [unique_permutations, (List.perm_insertionSort _ _).mem_iff, List.mem_dedup,
    List.mem_permutations']

theorem nodup_unique_permutations (values : List Int) : (unique_permutations values).Nodup := by
  rw [unique_permutations]
  exact ((List.perm_insertionSort _ _).nodup_iff).mpr (List.nodup_dedup _)

/-- The enumeration is closed under transitions: successors of enumerated
states are enumerated. -/
theorem closure_unique_permutations {values p q : List Int}
    (hp : p ∈ unique_permutations values) (hq : q ∈ bubble_neighbors p) :
    q ∈ unique_permutations values := by
  rw [mem_unique_permutations] at hp ⊢
  exact (perm_bubble_neighbors p q hq).symm.trans hp

theorem mem_nodes_multiway_unique {values n : List Int} :
    n ∈ (multiway_bubble (unique_permutations values)).nodes ↔
      n ∈ unique_permutations values := by
  rw [mem_nodes_multiway]
  constructor
  · rintro (h | ⟨p, hp, hq⟩)
    · exact h
    · exact closure_unique_permutations hp hq
  · exact Or.inl

theorem nodup_multiway_edge_list {states : List (List Int)} (h : states.Nodup) :
    (multiway_edge_list states).Nodup := by
  induction states with
  | nil => simp [multiway_edge_list]
  | cons p l ih =>
    rw [multiway_edge_list, List.flatMap_cons]
    have hpl : p ∉ l := (List.nodup_cons.mp h).1
    refine List.Nodup.append ?_ (ih (List.nodup_cons.mp h).2) ?_
    · exact (nodup_bubble_neighbors p).map (fun a b hab => by simpa using hab)
    · intro e he1 he2
      obtain ⟨q, _, rfl⟩ := List.mem_map.mp he1
      obtain ⟨p', hp', hin⟩ := List.mem_flatMap.mp he2
      obtain ⟨q', _, heq⟩ := List.mem_map.mp hin
      exact hpl ((Prod.mk.injEq .. ▸ heq).1 ▸ hp')

theorem edges_multiway_of_nodup {states : List (List Int)} (h : states.Nodup) :
    (multiway_bubble states).edges = multiway_edge_list states := by
  have hG : (add_nodes_from (Digraph.empty (List Int)) states).edges = [] := by
    rw [edges_add_nodes_from]; rfl
  rw [multiway_bubble_eq,
    edges_addEdges_of_nodup (by rw [hG]; exact List.nodup_nil)
      (nodup_multiway_edge_list h) (by simp [hG]),
    hG, List.nil_append]

theorem countP_multiway_edge_list {states : List (List Int)} {p : List Int}
    (h : states.Nodup) (hp : p ∈ states) :
    (multiway_edge_list states).countP (fun e => decide (e.1 = p)) =
      (bubble_neighbors p).length := by
  induction states with
  | nil => simp at hp
  | cons a l ih =>
    have hrest : (l.flatMap fun p => (bubble_neighbors p).map fun q => (p, q)) =
        multiway_edge_list l := rfl
    rw [multiway_edge_list, List.flatMap_cons, hrest, List.countP_append, List.countP_map]
    rcases List.mem_cons.mp hp with rfl | hp'
    · have h1 : (bubble_neighbors p).countP
          ((fun e : List Int × List Int => decide (e.1 = p)) ∘ (fun q => (p, q))) =
            (bubble_neighbors p).length := by
        rw [List.countP_eq_length]
        intro q _
        simp
      have h2 : (multiway_edge_list l).countP (fun e => decide (e.1 = p)) = 0 := by
        rw [List.countP_eq_zero]
        intro e he
        obtain ⟨p', hp', hin⟩ := List.mem_flatMap.mp he
        obtain ⟨q', _, rfl⟩ := List.mem_map.mp hin
        simp only [decide_eq_true_eq]
        intro hc
        exact (List.nodup_cons.mp h).1 (hc ▸ hp')
      rw [h1, h2, Nat.add_zero]
    · have ha : a ≠ p := fun hc => (List.nodup_cons.mp h).1 (hc ▸ hp')
      have h1 : (bubble_neighbors a).countP
          ((fun e : List Int × List Int => decide (e.1 = p)) ∘ (fun q => (a, q))) = 0 := by
        rw [List.countP_eq_zero]
        intro q _
        simpa using ha
      rw [h1, ih (List.nodup_cons.mp h).2 hp', Nat.zero_add]

theorem mem_all_events {states : List (List Int)} {e : Event} :
    e ∈ all_events states ↔
      e.source ∈ states ∧
        (e.target, e.swap_index) ∈ bubble_neighbors_with_index e.source := by
  rw [all_events]
  simp only [List.mem_flatMap, List.mem_map]
  constructor
  · rintro ⟨p, hp, ⟨q, i⟩, hqi, rfl⟩
    exact ⟨hp, hqi⟩
  · rintro ⟨hs, hqi⟩
    exact ⟨e.source, hs, (e.target, e.swap_index), hqi, rfl⟩

theorem count_all_events {states : List (List Int)} (h : states.Nodup) (e : Event) :
    (all_events states).count e =
      if e.source ∈ states ∧
          (e.target, e.swap_index) ∈ bubble_neighbors_with_index e.source
      then 1 else 0 := by
  induction states with
  | nil => simp [all_events]
  | cons p l ih =>
    have hrest : (l.flatMap fun p =>
        (bubble_neighbors_with_index p).map fun qi => Event.mk p qi.1 qi.2) =
          all_events l := rfl
    rw [all_events, List.flatMap_cons, hrest, List.count_append,
      ih (List.nodup_cons.mp h).2]
    have hinj : Function.Injective (fun qi : List Int × Nat => Event.mk p qi.1 qi.2) := by
      intro a b hab
      have := Event.mk.injEq p a.1 a.2 p b.1 b.2 ▸ hab
      exact Prod.ext (by simpa using congrArg Event.target hab)
        (by simpa using congrArg Event.swap_index hab)
    by_cases hsp : e.source = p
    · have hnl : e.source ∉ l := by
        rw [hsp]; exact (List.nodup_cons.mp h).1
      have he : e = (fun qi : List Int × Nat => Event.mk p qi.1 qi.2)
          (e.target, e.swap_index) := by
        cases e; simp_all
      have hblock : ((bubble_neighbors_with_index p).map
          (fun qi => Event.mk p qi.1 qi.2)).count e =
            if (e.target, e.swap_index) ∈ bubble_neighbors_with_index p then 1 else 0 := by
        have he' : e = Event.mk p e.target e.swap_index := by
          cases e; simp_all
        have hnodup : ((bubble_neighbors_with_index p).map
            (fun qi => Event.mk p qi.1 qi.2)).Nodup :=
          (nodup_bubble_neighbors_with_index p).map hinj
        by_cases hmem : (e.target, e.swap_index) ∈ bubble_neighbors_with_index p
        · rw [if_pos hmem]
          refine List.count_eq_one_of_mem hnodup ?_
          rw [he']
          exact List.mem_map_of_mem _ hmem
        · rw [if_neg hmem]
          refine List.count_eq_zero_of_not_mem ?_
          intro hmem'
          obtain ⟨qi, hqi, heq⟩ := List.mem_map.mp hmem'
          apply hmem
          have h1 : e.target = qi.1 := by rw [← heq]
          have h2 : e.swap_index = qi.2 := by rw [← heq]
          rw [h1, h2]
          simpa using hqi
      rw [hblock]
      simp only [hsp, List.mem_cons, true_or, true_and]
      have hpnl : p ∉ l := hsp ▸ hnl
      simp [hpnl]
    · have hblock : ((bubble_neighbors_with_index p).map
          (fun qi => Event.mk p qi.1 qi.2)).count e = 0 := by
        rw [List.count_eq_zero_of_not_mem]
        intro hmem'
        obtain ⟨qi, _, heq⟩ := List.mem_map.mp hmem'
        exact hsp (by rw [← heq])
      rw [hblock, Nat.zero_add]
      simp [List.mem_cons, hsp]

theorem length_all_events : ∀ states : List (List Int),
    (all_events states).length = (multiway_edge_list states).length
  | [] => rfl
  | p :: l => by
    have hrest : (l.flatMap fun p =>
        (bubble_neighbors_with_index p).map fun qi => Event.mk p qi.1 qi.2) =
          all_events l := rfl
    have hrest2 : (l.flatMap fun p => (bubble_neighbors p).map fun q => (p, q)) =
        multiway_edge_list l := rfl
    rw [all_events, multiway_edge_list, List.flatMap_cons, List.flatMap_cons, hrest, hrest2,
      List.length_append, List.length_append, List.length_map, List.length_map,
      length_all_events l]
    have hlen : (bubble_neighbors p).length = (bubble_neighbors_with_index p).length := by
      rw [bubble_neighbors_eq_map_fst, List.length_map]
    omega

theorem mem_in_event_ids {evs : List Event} {s : List Int} {i : Nat} :
    i ∈ in_event_ids evs s ↔ i < evs.length ∧ (evs.getD i default).target = s := by
  simp [in_event_ids, List.mem_filter]

theorem mem_out_event_ids {evs : List Event} {s : List Int} {i : Nat} :
    i ∈ out_event_ids evs s ↔ i < evs.length ∧ (evs.getD i default).source = s := by
  simp [out_event_ids, List.mem_filter]

theorem mem_edges_causal {states : List (List Int)} {e1 e2 : Nat} :
    (e1, e2) ∈ (build_causal_graph states).edges ↔
      ∃ s ∈ states, e1 ∈ in_event_ids (all_events states) s ∧
        e2 ∈ out_event_ids (all_events states) s := by
  rw [build_causal_graph_eq, mem_edges_addEdges, edges_add_nodes_from]
  simp only [Digraph.empty, List.not_mem_nil, false_or]
  rw [causal_edge_list]
  simp only [List.mem_flatMap, List.mem_map, Prod.mk.injEq]
  constructor
  · rintro ⟨s, hs, a, ha, b, hb, rfl, rfl⟩
    exact ⟨s, hs, ha, hb⟩
  · rintro ⟨s, hs, ha, hb⟩
    exact ⟨s, hs, e1, ha, e2, hb, rfl, rfl⟩

theorem nodes_causal (states : List (List Int)) :
    (build_causal_graph states).nodes = List.range (all_events states).length := by
  rw [build_causal_graph_eq]
  have hn : (add_nodes_from (Digraph.empty Nat)
      (List.range (all_events states).length)).nodes =
        List.range (all_events states).length := by
    have := nodes_add_nodes_from_of_nodup (G := Digraph.empty Nat)
      (l := List.range (all_events states).length)
      (by simp [Digraph.empty]) (List.nodup_range _)
    simpa [Digraph.empty] using this
  rw [nodes_addEdges_of_mem, hn]
  intro pq hpq
  rw [hn]
  obtain ⟨s, _, hrest⟩ := List.mem_flatMap.mp hpq
  obtain ⟨a, ha, hb⟩ := List.mem_flatMap.mp hrest
  obtain ⟨b, hbmem, heq⟩ := List.mem_map.mp hb
  cases heq
  exact ⟨List.mem_range.mpr (mem_in_event_ids.mp ha).1,
    List.mem_range.mpr (mem_out_event_ids.mp hbmem).1⟩

theorem target_mem_bubble_neighbors {t q : List Int} {i : Nat}
    (h : (q, i) ∈ bubble_neighbors_with_index t) : q ∈ bubble_neighbors t := by
  rw [bubble_neighbors_eq_map_fst]
  exact List.mem_map_of_mem Prod.fst h

/-- The content-level reading of the causal edge set: a pair of events is
causally linked exactly when both are genuine events and the first produces
the state the second consumes (that state being an enumerated one). -/
theorem mem_causal_edge_contents {states : List (List Int)} {ee : Event × Event} :
    ee ∈ causal_edge_contents states ↔
      ee.1 ∈ all_events states ∧ ee.2 ∈ all_events states ∧
        ee.1.target ∈ states ∧ ee.2.source = ee.1.target := by
  rw [causal_edge_contents]
  constructor
  · intro h
    obtain ⟨⟨a, b⟩, hab, heq⟩ := List.mem_map.mp h
    obtain ⟨s, hs, ha, hb⟩ := mem_edges_causal.mp hab
    obtain ⟨ha1, ha2⟩ := mem_in_event_ids.mp ha
    obtain ⟨hb1, hb2⟩ := mem_out_event_ids.mp hb
    have e1 : (all_events states).getD a default ∈ all_events states := by
      rw [List.getD_eq_getElem _ _ ha1]
      exact List.getElem_mem ha1
    have e2 : (all_events states).getD b default ∈ all_events states := by
      rw [List.getD_eq_getElem _ _ hb1]
      exact List.getElem_mem hb1
    subst heq
    exact ⟨e1, e2, ha2 ▸ hs, hb2.trans ha2.symm⟩
  · rintro ⟨h1, h2, h3, h4⟩
    obtain ⟨i, hi, hie⟩ := List.mem_iff_getElem.mp h1
    obtain ⟨j, hj, hje⟩ := List.mem_iff_getElem.mp h2
    refine List.mem_map.mpr ⟨(i, j), ?_, ?_⟩
    · refine mem_edges_causal.mpr ⟨ee.1.target, h3, ?_, ?_⟩
      · exact mem_in_event_ids.mpr ⟨hi, by rw [List.getD_eq_getElem _ _ hi, hie]⟩
      · exact mem_out_event_ids.mpr ⟨hj, by rw [List.getD_eq_getElem _ _ hj, hje, h4]⟩
    · have g1 : (all_events states).getD i default = ee.1 := by
        rw [List.getD_eq_getElem _ _ hi, hie]
      have g2 : (all_events states).getD j default = ee.2 := by
        rw [List.getD_eq_getElem _ _ hj, hje]
      rw [g1, g2]

theorem all_events_perm {s1 s2 : List (List Int)} (h : s1.Perm s2) :
    (all_events s1).Perm (all_events s2) :=
  h.flatMap_right _

/-- The content-level causal edge set is invariant under re-ordering the
enumerated states. -/
theorem causal_contents_perm_invariant {s1 s2 : List (List Int)} (h : s1.Perm s2)
    (ee : Event × Event) :
    ee ∈ causal_edge_contents s1 ↔ ee ∈ causal_edge_contents s2 := by
  rw [mem_causal_edge_contents, mem_causal_edge_contents,
    (all_events_perm h).mem_iff, (all_events_perm h).mem_iff, h.mem_iff]

/-- The layer key list is strictly descending. -/
theorem sorted_gt_sortedDescKeys (ks : List Nat) : (sortedDescKeys ks).Sorted (· > ·) := by
  have hnodup : (sortedDescKeys ks).Nodup :=
    ((List.mergeSort_perm _ _).nodup_iff).mpr (List.nodup_dedup ks)
  have hsorted : (sortedDescKeys ks).Pairwise (fun a b => decide (b ≤ a) = true) := by
    rw [sortedDescKeys]
    exact List.sorted_mergeSort
      (fun a b c hab hbc => by simp_all; omega)
      (fun a b => by simp [Nat.le_total b a]) (ks.dedup)
  have := hnodup.and hsorted
  refine this.imp ?_
  intro a b hab
  simp only [decide_eq_true_eq] at hab
  omega

theorem mem_sortedDescKeys {ks : List Nat} {a : Nat} :
    a ∈ sortedDescKeys ks ↔ a ∈ ks := by
  rw [sortedDescKeys, List.mem_mergeSort, List.mem_dedup]

/-- In a strictly descending list, `indexOf` is antitone on members. -/
theorem indexOf_le_of_sorted_gt {l : List Nat} (hs : l.Sorted (· > ·)) {a b : Nat}
    (ha : a ∈ l) (hb : b ∈ l) (hba : b ≤ a) : l.indexOf a ≤ l.indexOf b := by
  by_contra hcon
  push_neg at hcon
  have hia : l.indexOf a < l.length := List.indexOf_lt_length.mpr ha
  have hib : l.indexOf b < l.length := List.indexOf_lt_length.mpr hb
  have hrel := hs.rel_get_of_lt (a := ⟨l.indexOf b, hib⟩) (b := ⟨l.indexOf a, hia⟩) hcon
  rw [List.indexOf_get, List.indexOf_get] at hrel
  omega

theorem mem_edges_multiway2 {states : List (List Int)} {e : BNode × BNode} :
    e ∈ (multiway_bubble2 states).edges ↔
      ∃ p ∈ states, ∃ q ∈ bubble_neighbors p, (BNode.state p, BNode.state q) = e := by
  rw [multiway_bubble2_eq, mem_edges_addEdges, edges_add_nodes_from]
  simp only [Digraph.empty, List.not_mem_nil, false_or]
  rw [multiway2_edge_list]
  simp only [List.mem_flatMap, List.mem_map]

theorem mem_nodes_multiway2 {states : List (List Int)} {n : BNode} :
    n ∈ (multiway_bubble2 states).nodes ↔
      (∃ p ∈ states, n = BNode.state p) ∨
        ∃ p ∈ states, ∃ q ∈ bubble_neighbors p, n = BNode.state q := by
  rw [multiway_bubble2_eq, mem_nodes_addEdges, mem_nodes_add_nodes_from]
  simp only [Digraph.empty, List.not_mem_nil, false_or]
  rw [multiway2_edge_list]
  simp only [List.mem_flatMap, List.mem_map, List.mem_map]
  constructor
  · rintro (⟨p, hp, rfl⟩ | ⟨pq, ⟨p, hp, q, hq, rfl⟩, rfl | rfl⟩)
    · exact Or.inl ⟨p, hp, rfl⟩
    · exact Or.inl ⟨p, hp, rfl⟩
    · exact Or.inr ⟨p, hp, q, hq, rfl⟩
  · rintro (⟨p, hp, rfl⟩ | ⟨p, hp, q, hq, rfl⟩)
    · exact Or.inl ⟨p, hp, rfl⟩
    · exact Or.inr ⟨(BNode.state p, BNode.state q), ⟨p, hp, q, hq, rfl⟩, Or.inr rfl⟩

theorem mem_edges_add_super {G : Digraph BNode} {states : List (List Int)} {e : BNode × BNode} :
    e ∈ (add_super_source G states).edges ↔
      e ∈ G.edges ∨ ∃ s ∈ states, (BNode.super, BNode.state s) = e := by
  rw [add_super_source_eq, mem_edges_addEdges, edges_addNode]
  rw [super_edge_list]
  simp only [List.mem_map]

theorem mem_nodes_add_super {G : Digraph BNode} {states : List (List Int)} {n : BNode} :
    n ∈ (add_super_source G states).nodes ↔
      n ∈ G.nodes ∨ n = BNode.super ∨ ∃ s ∈ states, n = BNode.state s := by
  rw [add_super_source_eq, mem_nodes_addEdges, mem_nodes_addNode]
  rw [super_edge_list]
  simp only [List.mem_map]
  constructor
  · rintro ((h | rfl) | ⟨pq, ⟨s, hs, rfl⟩, rfl | rfl⟩)
    · exact Or.inl h
    · exact Or.inr (Or.inl rfl)
    · exact Or.inr (Or.inl rfl)
    · exact Or.inr (Or.inr ⟨s, hs, rfl⟩)
  · rintro (h | rfl | ⟨s, hs, rfl⟩)
    · exact Or.inl (Or.inl h)
    · exact Or.inl (Or.inr rfl)
    · exact Or.inr ⟨(BNode.super, BNode.state s), ⟨s, hs, rfl⟩, Or.inr rfl⟩

/-- Every node, and hence every edge endpoint, accepted by the graph of
src/bubble2.py before augmentation is a value-sequence node. -/
theorem edges_multiway2_shape {states : List (List Int)} {e : BNode × BNode}
    (he : e ∈ (multiway_bubble2 states).edges) :
    ∃ p q : List Int, e = (BNode.state p, BNode.state q) := by
  obtain ⟨p, _, q, _, heq⟩ := mem_edges_multiway2.mp he
  exact ⟨p, q, heq.symm⟩

/-- From any state that is a permutation of the input, some zero-inversion
state is reachable inside the multiway graph of the enumerated set. -/
theorem reach_sorted_aux (values : List Int) : ∀ k (t : List Int), inversions t = k →
    t.Perm values →
    ∃ u, Relation.ReflTransGen
        (fun a b => (a, b) ∈ (multiway_bubble (unique_permutations values)).edges) t u ∧
      inversions u = 0 := by
  intro k
  induction k using Nat.strong_induction_on with
  | _ k ih =>
    intro t hk hperm
    by_cases h0 : inversions t = 0
    · exact ⟨t, Relation.ReflTransGen.refl, h0⟩
    · have hne : bubble_neighbors t ≠ [] := by
        intro hnil
        exact h0 (inversions_eq_zero_of_sorted t (sorted_of_bubble_neighbors_nil t hnil))
      obtain ⟨q, hq⟩ := List.exists_mem_of_ne_nil _ hne
      have hstep : inversions t = inversions q + 1 :=
        inversions_of_mem_bubble_neighbors t q hq
      have hqperm : q.Perm values := (perm_bubble_neighbors t q hq).symm.trans hperm
      obtain ⟨u, hu, hu0⟩ := ih (inversions q) (by omega) q rfl hqperm
      refine ⟨u, Relation.ReflTransGen.head ?_ hu, hu0⟩
      exact mem_edges_multiway.mpr ⟨mem_unique_permutations.mpr hperm, hq⟩

/-- C1: every successor produced by the transition generator has inversion
count exactly one less than its source, and consequently the multiway graph
built from any enumerated state set is acyclic. -/
theorem claimC1 :
    (∀ t q : List Int, q ∈ bubble_neighbors t → inversions q = inversions t - 1) ∧
      ∀ states : List (List Int), (multiway_bubble states).Acyclic := by
  constructor
  · intro t q hq
    have := inversions_of_mem_bubble_neighbors t q hq
    omega
  · intro states a ha
    exact absurd (inversions_lt_of_transGen ha) (lt_irrefl _)

/-- Witness for C1 at a concrete transition of the states `2,1`. -/
theorem claimC1_witness : inversions [1, 2] = inversions [2, 1] - 1 :=
  claimC1.1 [2, 1] [1, 2] (by decide)

/-- C3: the transition generator yields exactly one successor per index `i`
in `[0, length-2]` with `t[i] > t[i+1]` strictly (namely the adjacent swap at
`i`), a non-descending state yields the empty sequence, and no successor
equals its source. -/
theorem claimC3 (t : List Int) :
    bubble_neighbors t =
      ((List.range (t.length - 1)).filter
        (fun i => decide (t.getD i 0 > t.getD (i + 1) 0))).map (swapAdj t) ∧
      (t.Sorted (· ≤ ·) → bubble_neighbors t = []) ∧
      ∀ q ∈ bubble_neighbors t, q ≠ t := by
  refine ⟨?_, sorted_bubble_neighbors_nil t, ?_⟩
  · rw [bubble_neighbors_eq_map_fst, bubble_neighbors_with_index_eq, List.map_map]
    rfl
  · intro q hq heq
    have := inversions_of_mem_bubble_neighbors t q hq
    rw [heq] at this
    omega

/-- Witness for C3: a sorted state is a sink, equal adjacent values produce
nothing, and a successor differs from its source. -/
theorem claimC3_witness :
    bubble_neighbors [1, 1] = [] ∧ ([1, 2] : List Int) ≠ [2, 1] :=
  ⟨(claimC3 [1, 1]).2.1 (by decide), (claimC3 [2, 1]).2.2 [1, 2] (by decide)⟩

/-- C4: the enumerated state set is closed under transitions, so the multiway
graph's node set is exactly the enumerated set. -/
theorem claimC4 (values : List Int) :
    (∀ p ∈ unique_permutations values, ∀ q ∈ bubble_neighbors p,
        q ∈ unique_permutations values) ∧
      ∀ n, n ∈ (multiway_bubble (unique_permutations values)).nodes ↔
        n ∈ unique_permutations values :=
  ⟨fun _ hp _ hq => closure_unique_permutations hp hq,
    fun _ => mem_nodes_multiway_unique⟩

/-- Witness for C4 on the input `2,1`. -/
theorem claimC4_witness : ([1, 2] : List Int) ∈ unique_permutations [2, 1] :=
  (claimC4 [2, 1]).1 [2, 1] (by decide) [1, 2] (by decide)

/-- C6: for non-empty input, from every node of the multiway graph some state
with zero inversions is reachable along graph edges. -/
theorem claimC6 (values : List Int) (_hne : values ≠ []) :
    ∀ t ∈ (multiway_bubble (unique_permutations values)).nodes,
      ∃ u, Relation.ReflTransGen
          (fun a b => (a, b) ∈ (multiway_bubble (unique_permutations values)).edges) t u ∧
        inversions u = 0 := by
  intro t ht
  have hperm : t.Perm values :=
    mem_unique_permutations.mp (mem_nodes_multiway_unique.mp ht)
  exact reach_sorted_aux values (inversions t) t rfl hperm

/-- Witness for C6 on the input `2,1` starting at the node `2,1`. -/
theorem claimC6_witness :
    ∃ u, Relation.ReflTransGen
        (fun a b => (a, b) ∈ (multiway_bubble (unique_permutations [2, 1])).edges) [2, 1] u ∧
      inversions u = 0 :=
  claimC6 [2, 1] (by decide) [2, 1] (by decide)

/-- C7: the state enumerators return duplicate-free state sequences
deterministically; in size-`n` mode the output is exactly the permutations of
`1..n`, `n!` of them. -/
theorem claimC7 (n : Nat) :
    (states_from_n n).Nodup ∧
      (∀ x, x ∈ states_from_n n ↔ x.Perm ((List.range' 1 n).map Int.ofNat)) ∧
      (states_from_n n).length = Nat.factorial n ∧
      states_from_n n = states_from_n n ∧
      ∀ values : List Int, (unique_permutations values).Nodup ∧
        unique_permutations values = unique_permutations values := by
  have hbase : ((List.range' 1 n).map Int.ofNat).Nodup := by
    refine List.Nodup.map_on ?_ (List.nodup_range' 1 n)
    intro x _ y _ hxy
    exact Int.ofNat.inj hxy
  refine ⟨?_, ?_, ?_, rfl, fun values => ⟨nodup_unique_permutations values, rfl⟩⟩
  · rw [states_from_n]
    exact (List.permutations_perm_permutations' _).nodup_iff.mp
      (List.nodup_permutations _ hbase)
  · intro x
    rw [states_from_n, List.mem_permutations']
  · rw [states_from_n, ← (List.permutations_perm_permutations' _).length_eq,
      List.length_permutations, List.length_map, List.length_range']

/-- Witness for C7 at `n = 3`. -/
theorem claimC7_witness :
    (states_from_n 3).length = Nat.factorial 3 ∧
      (([2, 3, 1] : List Int) ∈ states_from_n 3 ↔
        ([2, 3, 1] : List Int).Perm ((List.range' 1 3).map Int.ofNat)) :=
  ⟨(claimC7 3).2.2.1, (claimC7 3).2.1 [2, 3, 1]⟩

/-- C2: the causal builder creates one event per (originating state,
applicable swap index) pair; its edge set is exactly the full bipartite join
of the producing and the consuming events at each enumerated state; a state
lacking producers or consumers contributes no causal edges; and on the states
of input `2,1` the causal graph has exactly one event node and no edges. -/
theorem claimC2 (states : List (List Int)) (h : states.Nodup) :
    (∀ e : Event, (all_events states).count e =
        if e.source ∈ states ∧
            (e.target, e.swap_index) ∈ bubble_neighbors_with_index e.source
        then 1 else 0) ∧
      (∀ e1 e2 : Nat, (e1, e2) ∈ (build_causal_graph states).edges ↔
        ∃ s ∈ states, e1 ∈ in_event_ids (all_events states) s ∧
          e2 ∈ out_event_ids (all_events states) s) ∧
      (∀ s : List Int,
        in_event_ids (all_events states) s = [] ∨
            out_event_ids (all_events states) s = [] →
          ∀ e1 e2 : Nat, (e1, e2) ∈ (build_causal_graph states).edges →
            ¬ (((all_events states).getD e1 default).target = s ∧
                ((all_events states).getD e2 default).source = s)) ∧
      ((build_causal_graph (unique_permutations [2, 1])).nodes.length = 1 ∧
        (build_causal_graph (unique_permutations [2, 1])).edges = []) := by
  refine ⟨count_all_events h, fun e1 e2 => mem_edges_causal, ?_, by decide, by decide⟩
  intro s hdis e1 e2 he hcontra
  obtain ⟨ht, hsc⟩ := hcontra
  obtain ⟨s', _, ha, hb⟩ := mem_edges_causal.mp he
  have hlen1 : e1 < (all_events states).length := (mem_in_event_ids.mp ha).1
  have hlen2 : e2 < (all_events states).length := (mem_out_event_ids.mp hb).1
  rcases hdis with hd | hd
  · have hmem : e1 ∈ in_event_ids (all_events states) s := mem_in_event_ids.mpr ⟨hlen1, ht⟩
    rw [hd] at hmem
    exact absurd hmem (List.not_mem_nil e1)
  · have hmem : e2 ∈ out_event_ids (all_events states) s :=
      mem_out_event_ids.mpr ⟨hlen2, hsc⟩
    rw [hd] at hmem
    exact absurd hmem (List.not_mem_nil e2)

/-- Witness for C2 at the state set of input `2,1`: the single swap event is
counted once. -/
theorem claimC2_witness :
    (all_events [[2, 1], [1, 2]]).count ⟨[2, 1], [1, 2], 0⟩ =
      if ([2, 1] : List Int) ∈ ([[2, 1], [1, 2]] : List (List Int)) ∧
          (([1, 2] : List Int), 0) ∈ bubble_neighbors_with_index [2, 1]
      then 1 else 0 :=
  (claimC2 [[2, 1], [1, 2]] (by decide)).1 ⟨[2, 1], [1, 2], 0⟩

/-- C5 counterexample: the two enumeration orders of the same two-state set
produce different causal graphs (the edge runs between different event ids),
so the builder's output is not literally enumeration-order-independent. -/
theorem claimC5_counterexample :
    ([[3, 1, 2], [1, 3, 2]] : List (List Int)).Perm [[1, 3, 2], [3, 1, 2]] ∧
      (0, 1) ∈ (build_causal_graph [[3, 1, 2], [1, 3, 2]]).edges ∧
      (0, 1) ∉ (build_causal_graph [[1, 3, 2], [3, 1, 2]]).edges := by
  exact ⟨by decide, by decide, by decide⟩

/-- C5 (amended): up to the relabelling of event ids by the event data they
carry (source, target, swap index), the causal edge set depends only on the
state set: any two enumeration orders give the same content-level edges. -/
theorem claimC5 (s1 s2 : List (List Int)) (h : s1.Perm s2) :
    ∀ ee : Event × Event, ee ∈ causal_edge_contents s1 ↔ ee ∈ causal_edge_contents s2 :=
  causal_contents_perm_invariant h

/-- Witness for C5 on the two orders of the two-state set. -/
theorem claimC5_witness :
    (⟨[3, 1, 2], [1, 3, 2], 0⟩, (⟨[1, 3, 2], [1, 2, 3], 1⟩ : Event)) ∈
        causal_edge_contents [[3, 1, 2], [1, 3, 2]] ↔
      (⟨[3, 1, 2], [1, 3, 2], 0⟩, (⟨[1, 3, 2], [1, 2, 3], 1⟩ : Event)) ∈
        causal_edge_contents [[1, 3, 2], [3, 1, 2]] :=
  claimC5 [[3, 1, 2], [1, 3, 2]] [[1, 3, 2], [3, 1, 2]] (by decide) _

/-- C8: super-source augmentation adds one synthetic node, distinct by
construction from every value-sequence node, with an edge to every enumerated
state and no incoming edge; every pre-existing node and edge survives, and
the only new edges leave the synthetic node. -/
theorem claimC8 (states : List (List Int)) :
    (∀ s : List Int, BNode.super ≠ BNode.state s) ∧
      (∀ s ∈ states, (BNode.super, BNode.state s) ∈
        (add_super_source (multiway_bubble2 states) states).edges) ∧
      (∀ x : BNode, (x, BNode.super) ∉
        (add_super_source (multiway_bubble2 states) states).edges) ∧
      (∀ n ∈ (multiway_bubble2 states).nodes,
        n ∈ (add_super_source (multiway_bubble2 states) states).nodes) ∧
      (∀ e ∈ (multiway_bubble2 states).edges,
        e ∈ (add_super_source (multiway_bubble2 states) states).edges) ∧
      ∀ e ∈ (add_super_source (multiway_bubble2 states) states).edges,
        e ∈ (multiway_bubble2 states).edges ∨
          e.1 = BNode.super ∧ ∃ s ∈ states, e.2 = BNode.state s := by
  refine ⟨fun s hcontra => BNode.noConfusion hcontra, ?_, ?_, ?_, ?_, ?_⟩
  · intro s hs
    exact mem_edges_add_super.mpr (Or.inr ⟨s, hs, rfl⟩)
  · intro x hx
    rcases mem_edges_add_super.mp hx with hmem | ⟨s, _, heq⟩
    · obtain ⟨p, q, heq⟩ := edges_multiway2_shape hmem
      exact BNode.noConfusion (congrArg Prod.snd heq)
    · exact BNode.noConfusion (congrArg Prod.snd heq)
  · intro n hn
    exact mem_nodes_add_super.mpr (Or.inl hn)
  · intro e he
    exact mem_edges_add_super.mpr (Or.inl he)
  · intro e he
    rcases mem_edges_add_super.mp he with hmem | ⟨s, hs, heq⟩
    · exact Or.inl hmem
    · exact Or.inr ⟨by rw [← heq], s, hs, by rw [← heq]⟩

/-- Witness for C8 on the state set of input `2,1`. -/
theorem claimC8_witness :
    (BNode.super, BNode.state [2, 1]) ∈
      (add_super_source (multiway_bubble2 [[2, 1], [1, 2]]) [[2, 1], [1, 2]]).edges :=
  (claimC8 [[2, 1], [1, 2]]).2.1 [2, 1] (by decide)

/-- C9: in both layered layouts (layers keyed by inversion count of the
associated sequence, ordered descending), the layer index of an edge's source
is at most the layer index of its target. -/
theorem claimC9 (states : List (List Int)) :
    (∀ e ∈ (multiway_bubble states).edges,
        state_layer (multiway_bubble states) e.1 ≤
          state_layer (multiway_bubble states) e.2) ∧
      ∀ e ∈ (build_causal_graph states).edges,
        causal_layer states (build_causal_graph states) e.1 ≤
          causal_layer states (build_causal_graph states) e.2 := by
  constructor
  · rintro ⟨p, q⟩ he
    obtain ⟨hp, hq⟩ := mem_edges_multiway.mp he
    have hinv := inversions_of_mem_bubble_neighbors p q hq
    have hpn : p ∈ (multiway_bubble states).nodes := mem_nodes_multiway.mpr (Or.inl hp)
    have hqn : q ∈ (multiway_bubble states).nodes :=
      mem_nodes_multiway.mpr (Or.inr ⟨p, hp, hq⟩)
    rw [state_layer, state_layer]
    refine indexOf_le_of_sorted_gt (sorted_gt_sortedDescKeys _) ?_ ?_ ?_
    · exact mem_sortedDescKeys.mpr (List.mem_map_of_mem inversions hpn)
    · exact mem_sortedDescKeys.mpr (List.mem_map_of_mem inversions hqn)
    · show inversions q ≤ inversions p
      omega
  · rintro ⟨a, b⟩ he
    obtain ⟨s, hs, ha, hb⟩ := mem_edges_causal.mp he
    obtain ⟨ha1, ha2⟩ := mem_in_event_ids.mp ha
    obtain ⟨hb1, hb2⟩ := mem_out_event_ids.mp hb
    have hEa : (all_events states).getD a default ∈ all_events states := by
      rw [List.getD_eq_getElem _ _ ha1]
      exact List.getElem_mem ha1
    have hEaev := mem_all_events.mp hEa
    have hstep : inversions ((all_events states).getD a default).source =
        inversions ((all_events states).getD a default).target + 1 :=
      inversions_of_mem_bubble_neighbors _ _ (target_mem_bubble_neighbors hEaev.2)
    have hkey : inversions ((all_events states).getD b default).source =
        inversions ((all_events states).getD a default).target := by
      rw [hb2, ← ha2]
    have han : a ∈ (build_causal_graph states).nodes := by
      rw [nodes_causal]; exact List.mem_range.mpr ha1
    have hbn : b ∈ (build_causal_graph states).nodes := by
      rw [nodes_causal]; exact List.mem_range.mpr hb1
    rw [causal_layer, causal_layer]
    refine indexOf_le_of_sorted_gt (sorted_gt_sortedDescKeys _) ?_ ?_ ?_
    · exact mem_sortedDescKeys.mpr (List.mem_map_of_mem _ han)
    · exact mem_sortedDescKeys.mpr (List.mem_map_of_mem _ hbn)
    · show inversions ((all_events states).getD b default).source ≤
        inversions ((all_events states).getD a default).source
      omega

/-- Witness for C9 at concrete edges of both graphs. -/
theorem claimC9_witness :
    state_layer (multiway_bubble (unique_permutations [2, 1])) [2, 1] ≤
        state_layer (multiway_bubble (unique_permutations [2, 1])) [1, 2] ∧
      causal_layer [[3, 1, 2], [1, 3, 2]] (build_causal_graph [[3, 1, 2], [1, 3, 2]]) 0 ≤
        causal_layer [[3, 1, 2], [1, 3, 2]] (build_causal_graph [[3, 1, 2], [1, 3, 2]]) 1 :=
  ⟨(claimC9 (unique_permutations [2, 1])).1 ([2, 1], [1, 2]) (by decide),
    (claimC9 [[3, 1, 2], [1, 3, 2]]).2 (0, 1) (by decide)⟩

/-- C10: distinct applicable swap indices give distinct successors, so the
successor list is duplicate-free; hence each enumerated node's out-degree is
its number of adjacent strictly-out-of-order pairs, and the causal graph has
exactly as many events as the multiway graph has edges. -/
theorem claimC10 (states : List (List Int)) (h : states.Nodup) :
    (∀ t : List Int, ∀ a ∈ bubble_neighbors_with_index t,
        ∀ b ∈ bubble_neighbors_with_index t, a.2 ≠ b.2 → a.1 ≠ b.1) ∧
      (∀ t : List Int, (bubble_neighbors t).Nodup) ∧
      (∀ p ∈ states, out_degree (multiway_bubble states) p =
        ((List.range (p.length - 1)).filter
          (fun i => decide (p.getD i 0 > p.getD (i + 1) 0))).length) ∧
      (all_events states).length = (multiway_bubble states).edges.length := by
  refine ⟨fun t a ha b hb hab => fst_ne_of_snd_ne ha hb hab,
    nodup_bubble_neighbors, ?_, ?_⟩
  · intro p hp
    rw [out_degree, edges_multiway_of_nodup h, countP_multiway_edge_list h hp,
      bubble_neighbors_eq_map_fst, bubble_neighbors_with_index_eq,
      List.length_map, List.length_map]
  · rw [edges_multiway_of_nodup h, length_all_events]

/-- Witness for C10 on the state set of input `3,2,1`. -/
theorem claimC10_witness :
    out_degree (multiway_bubble (unique_permutations [3, 2, 1])) [3, 2, 1] =
        ((List.range (([3, 2, 1] : List Int).length - 1)).filter
          (fun i => decide (([3, 2, 1] : List Int).getD i 0 >
            ([3, 2, 1] : List Int).getD (i + 1) 0))).length ∧
      (all_events (unique_permutations [3, 2, 1])).length =
        (multiway_bubble (unique_permutations [3, 2, 1])).edges.length :=
  ⟨(claimC10 (unique_permutations [3, 2, 1]) (by decide)).2.2.1 [3, 2, 1] (by decide),
    (claimC10 (unique_permutations [3, 2, 1]) (by decide)).2.2.2⟩

end Multiway
